import Mathlib

/-!
Verification of the inbound-deduplication and reply-threading pipeline of the
email channel adapter: the dedup cache (createDedupeCache in
src/extensions/email/src/email/monitor.test.ts, lines 104-147 and 661-704),
the reply recipient resolver and quote stripper (resolveReplyRecipients and
extractLatestContent in src/unnamed/part_002), the inbound allowlist gate
(processInboundEmail, monitor.test.ts lines 947-987), and the message-id
extraction helpers (extractInboundMessageIds, monitor.test.ts lines 748-806).

JavaScript strings are modelled as Lean String values; the JavaScript string
operations used by the source (toLowerCase, trim, split, join, startsWith,
endsWith) are embedded as structurally recursive functions over the underlying
character list so that every definition evaluates inside the kernel.
-/

/-- Model of the JavaScript String.prototype.toLowerCase for the ASCII range
(all addresses and patterns in the source are ASCII). -/
def lowerS (s : String) : String :=
  ⟨s.data.map Char.toLower⟩

/-- Model of the JavaScript whitespace class (the characters relevant to this
code base: space, tab, newline, carriage return, vertical tab, form feed and
no-break space). -/
def isJsWhitespace (c : Char) : Bool :=
  c == ' ' || c == '\t' || c == '\n' || c == '\r' || c == '\x0b' || c == '\x0c' || c == ' '

/-- Model of the JavaScript String.prototype.trim: strip leading and trailing
whitespace. -/
def trimS (s : String) : String :=
  ⟨((s.data.dropWhile isJsWhitespace).reverse.dropWhile isJsWhitespace).reverse⟩

/- ========================================================================
   Dedup cache — createDedupeCache
   (src/extensions/email/src/email/monitor.test.ts, lines 104-147, identical
   second copy at lines 661-704)
   ======================================================================== -/

/-- State of the backing JavaScript Map of createDedupeCache: entries in
insertion order (head = oldest), each a key with the timestamp (ms) it was
last recorded at.  Keys are unique on every reachable state, mirroring Map
semantics. -/
abbrev DedupeState := List (String × Int)

/-- Options record passed to createDedupeCache. -/
structure DedupeOptions where
  ttlMs : Int
  maxSize : Int
deriving DecidableEq

/-- Normalization performed by createDedupeCache: ttlMs = Math.max(0, options.ttlMs). -/
def normalizedTtlMs (o : DedupeOptions) : Int := max 0 o.ttlMs

/-- Normalization performed by createDedupeCache: maxSize = Math.max(0,
Math.floor(options.maxSize)); options.maxSize is modelled as an integer, on
which Math.floor is the identity. -/
def normalizedMaxSize (o : DedupeOptions) : Nat := (max 0 o.maxSize).toNat

/-- Embedding of the touch closure: cache.delete(key) followed by
cache.set(key, now) moves the entry to the most-recent (back) position. -/
def touch (key : String) (now : Int) (s : DedupeState) : DedupeState :=
  s.filter (fun e => e.1 != key) ++ [(key, now)]

/-- Embedding of the first phase of the prune closure: when ttlMs is positive,
delete every entry whose timestamp is strictly older than the cutoff
now - ttlMs. -/
def pruneExpired (ttlMs now : Int) (s : DedupeState) : DedupeState :=
  if 0 < ttlMs then s.filter (fun e => !(decide (e.2 < now - ttlMs))) else s

/-- Embedding of the second phase of the prune closure: while the store size
exceeds maxSize, delete the oldest entry; the loop breaks when the oldest key
is falsy (the empty string), mirroring the if (!oldestKey) break guard. -/
def pruneOversize (maxSize : Nat) : DedupeState → DedupeState
  | [] => []
  | e :: rest =>
    if rest.length + 1 ≤ maxSize then e :: rest
    else if e.1 = "" then e :: rest
    else pruneOversize maxSize rest

/-- Embedding of the prune closure: TTL pass then size pass. -/
def prune (o : DedupeOptions) (now : Int) (s : DedupeState) : DedupeState :=
  pruneOversize (normalizedMaxSize o) (pruneExpired (normalizedTtlMs o) now s)

/-- Embedding of the check operation returned by createDedupeCache.  The key
argument models the string-or-null-or-undefined parameter: none stands for
null/undefined, and the empty string is falsy, so both take the early-return
branch.  Returns the boolean result paired with the successor state. -/
def dedupeCheck (o : DedupeOptions) (key : Option String) (now : Int) (s : DedupeState) :
    Bool × DedupeState :=
  match key with
  | none => (false, s)
  | some k =>
    if k = "" then (false, s)
    else
      match List.lookup k s with
      | some existing =>
        if normalizedTtlMs o ≤ 0 ∨ now - existing < normalizedTtlMs o then
          (true, touch k now s)
        else
          (false, prune o now (touch k now s))
      | none => (false, prune o now (touch k now s))

/-- Folding a sequence of check calls over a starting state, keeping only the
final state. -/
def runDedupeChecks (o : DedupeOptions) (calls : List (Option String × Int))
    (s : DedupeState) : DedupeState :=
  calls.foldl (fun st c => (dedupeCheck o c.1 c.2 st).2) s

/-- C8: check with a null/undefined or empty key returns false and leaves the
cache state (hence the store size) completely unchanged, for every time and
every cache state. -/
theorem dedupe_empty_key_no_effect (o : DedupeOptions) (now : Int) (s : DedupeState) :
    dedupeCheck o none now s = (false, s) ∧ dedupeCheck o (some "") now s = (false, s) := by
  constructor
  · rfl
  · simp [dedupeCheck]

/- Supporting lemmas about the cache primitives. -/

lemma pruneExpired_eq_self (ttlMs now : Int) (s : DedupeState)
    (h : ∀ e ∈ s, ¬(e.2 < now - ttlMs)) : pruneExpired ttlMs now s = s := by
  unfold pruneExpired
  split
  · apply List.filter_eq_self.mpr
    intro e he
    simpa using h e he
  · rfl

lemma pruneExpired_subset (ttlMs now : Int) (s : DedupeState) (e : String × Int)
    (h : e ∈ pruneExpired ttlMs now s) : e ∈ s := by
  unfold pruneExpired at h
  split at h
  · exact (List.mem_filter.mp h).1
  · exact h

lemma pruneOversize_eq_drop (maxSize : Nat) (s : DedupeState)
    (h : ∀ e ∈ s, e.1 ≠ "") : pruneOversize maxSize s = s.drop (s.length - maxSize) := by
  induction s with
  | nil => simp [pruneOversize]
  | cons e rest ih =>
    unfold pruneOversize
    by_cases hle : rest.length + 1 ≤ maxSize
    · rw [if_pos hle]
      have hz : (e :: rest).length - maxSize = 0 := by
        simp only [List.length_cons]; omega
      rw [hz, List.drop_zero]
    · rw [if_neg hle, if_neg (h e (List.mem_cons_self e rest))]
      rw [ih (fun x hx => h x (List.mem_cons_of_mem e hx))]
      have hs : (e :: rest).length - maxSize = (rest.length - maxSize) + 1 := by
        simp only [List.length_cons]; omega
      rw [hs, List.drop_succ_cons]

lemma pruneOversize_sublist (maxSize : Nat) (s : DedupeState) :
    List.Sublist (pruneOversize maxSize s) s := by
  induction s with
  | nil => exact List.Sublist.refl _
  | cons e rest ih =>
    unfold pruneOversize
    split
    · exact List.Sublist.refl _
    · split
      · exact List.Sublist.refl _
      · exact ih.trans (List.sublist_cons_self e rest)

lemma pruneOversize_length_le (maxSize : Nat) (s : DedupeState)
    (h : ∀ e ∈ s, e.1 ≠ "") : (pruneOversize maxSize s).length ≤ maxSize := by
  rw [pruneOversize_eq_drop maxSize s h, List.length_drop]
  omega

lemma lookup_eq_none_of_not_mem_keys (k : String) (s : DedupeState)
    (h : k ∉ s.map Prod.fst) : List.lookup k s = none := by
  induction s with
  | nil => rfl
  | cons e rest ih =>
    obtain ⟨a, b⟩ := e
    simp only [List.map_cons, List.mem_cons, not_or] at h
    simp only [List.lookup]
    rw [show (k == a) = false from beq_eq_false_iff_ne.mpr h.1]
    exact ih h.2

lemma lookup_some_mem (k : String) (t : Int) (s : DedupeState)
    (h : List.lookup k s = some t) : (k, t) ∈ s := by
  induction s with
  | nil => simp [List.lookup] at h
  | cons e rest ih =>
    obtain ⟨a, b⟩ := e
    by_cases hk : k = a
    · subst hk
      simp only [List.lookup, beq_self_eq_true] at h
      injection h with h
      subst h
      exact List.mem_cons_self _ _
    · simp only [List.lookup, show (k == a) = false from beq_eq_false_iff_ne.mpr hk] at h
      exact List.mem_cons_of_mem _ (ih h)

lemma lookup_cons_self (k : String) (t : Int) (s : DedupeState) :
    List.lookup k ((k, t) :: s) = some t := by
  simp [List.lookup]

lemma mem_touch (k : String) (now : Int) (s : DedupeState) (e : String × Int)
    (h : e ∈ touch k now s) : e ∈ s ∨ e = (k, now) := by
  unfold touch at h
  rcases List.mem_append.mp h with h | h
  · exact Or.inl (List.mem_filter.mp h).1
  · exact Or.inr (List.mem_singleton.mp h)

/- Equation lemmas exposing the three non-trivial outcomes of dedupeCheck. -/

lemma dedupeCheck_fresh (o : DedupeOptions) (k : String) (now : Int) (s : DedupeState)
    (hk : k ≠ "") (hlook : List.lookup k s = none) :
    dedupeCheck o (some k) now s = (false, prune o now (touch k now s)) := by
  simp only [dedupeCheck, if_neg hk, hlook]

lemma dedupeCheck_found_live (o : DedupeOptions) (k : String) (now existing : Int)
    (s : DedupeState) (hk : k ≠ "") (hlook : List.lookup k s = some existing)
    (hcond : normalizedTtlMs o ≤ 0 ∨ now - existing < normalizedTtlMs o) :
    dedupeCheck o (some k) now s = (true, touch k now s) := by
  simp only [dedupeCheck, if_neg hk, hlook, if_pos hcond]

lemma dedupeCheck_found_expired (o : DedupeOptions) (k : String) (now existing : Int)
    (s : DedupeState) (hk : k ≠ "") (hlook : List.lookup k s = some existing)
    (hcond : ¬(normalizedTtlMs o ≤ 0 ∨ now - existing < normalizedTtlMs o)) :
    dedupeCheck o (some k) now s = (false, prune o now (touch k now s)) := by
  simp only [dedupeCheck, if_neg hk, hlook, if_neg hcond]

/-- Goodness invariant maintained by every reachable cache state: no falsy
(empty-string) key is ever stored, and the store size stays within maxSize. -/
def GoodState (maxSize : Nat) (s : DedupeState) : Prop :=
  (∀ e ∈ s, e.1 ≠ "") ∧ s.length ≤ maxSize

lemma dedupeCheck_preserves_good (o : DedupeOptions) (key : Option String) (now : Int)
    (s : DedupeState) (h : GoodState (normalizedMaxSize o) s) :
    GoodState (normalizedMaxSize o) (dedupeCheck o key now s).2 := by
  obtain ⟨hkeys, hlen⟩ := h
  match key with
  | none => exact ⟨hkeys, hlen⟩
  | some k =>
    by_cases hk : k = ""
    · simp only [dedupeCheck, if_pos hk]
      exact ⟨hkeys, hlen⟩
    · have hkeys_touch : ∀ e ∈ touch k now s, e.1 ≠ "" := by
        intro e he
        rcases mem_touch k now s e he with hmem | hmem
        · exact hkeys e hmem
        · rw [hmem]; exact hk
      have hgood_prune : GoodState (normalizedMaxSize o) (prune o now (touch k now s)) := by
        have hkeys_pe : ∀ e ∈ pruneExpired (normalizedTtlMs o) now (touch k now s), e.1 ≠ "" :=
          fun e he => hkeys_touch e (pruneExpired_subset _ _ _ _ he)
        constructor
        · intro e he
          exact hkeys_pe e ((pruneOversize_sublist _ _).mem he)
        · exact pruneOversize_length_le _ _ hkeys_pe
      rcases hlook : List.lookup k s with _ | existing
      · rw [dedupeCheck_fresh o k now s hk hlook]
        exact hgood_prune
      · by_cases hcond : normalizedTtlMs o ≤ 0 ∨ now - existing < normalizedTtlMs o
        · rw [dedupeCheck_found_live o k now existing s hk hlook hcond]
          refine ⟨hkeys_touch, ?_⟩
          have hmem : (k, existing) ∈ s := lookup_some_mem k existing s hlook
          have hlt : (s.filter (fun e => e.1 != k)).length < s.length := by
            apply List.length_filter_lt_length_iff_exists.mpr
            exact ⟨(k, existing), hmem, by simp⟩
          simp only [touch, List.length_append, List.length_singleton]
          omega
        · rw [dedupeCheck_found_expired o k now existing s hk hlook hcond]
          exact hgood_prune

/-- C9: starting from an empty cache, after every call in any finite sequence
of check calls (here: after every prefix of the call sequence), the number of
entries in the backing store is at most the normalized maxSize. -/
theorem dedupe_store_bounded (o : DedupeOptions) (calls : List (Option String × Int))
    (n : Nat) : (runDedupeChecks o (calls.take n) []).length ≤ normalizedMaxSize o := by
  have hrun : ∀ (cs : List (Option String × Int)) (s : DedupeState),
      GoodState (normalizedMaxSize o) s →
      GoodState (normalizedMaxSize o) (runDedupeChecks o cs s) := by
    intro cs
    induction cs with
    | nil => intro s hs; exact hs
    | cons c rest ih =>
      intro s hs
      exact ih _ (dedupeCheck_preserves_good o c.1 c.2 s hs)
  exact (hrun (calls.take n) [] ⟨by intro e he; simp at he, by simp⟩).2

/-- C1 counterexample: the claim quantifies over every configuration, but it
fails for the degenerate configurations the source explicitly supports.  With
maxSize = 0 (ttlMs = 5) the first check inserts the key and the prune loop
immediately evicts it, so an in-window second check returns false instead of
true.  With ttlMs = 0 (maxSize = 10) entries never expire by age, so a second
check at or beyond the TTL distance returns true instead of false. -/
theorem dedupe_ttl_claim_counterexample :
    ("k" ≠ "") ∧ ((0 : Int) < 1) ∧ ((1 : Int) - 0 < 5) ∧
    (dedupeCheck ⟨5, 0⟩ (some "k") 1 (dedupeCheck ⟨5, 0⟩ (some "k") 0 []).2).1 = false ∧
    ("j" ≠ "") ∧ ((0 : Int) < 7) ∧ ((0 : Int) ≤ 7 - 0) ∧
    (dedupeCheck ⟨0, 10⟩ (some "j") 7 (dedupeCheck ⟨0, 10⟩ (some "j") 0 []).2).1 = true := by
  decide

/-- C1 (amended): for every non-empty key, every configuration with ttlMs at
least 1 and maxSize at least 1, and all times t1 less than t2, after
check(K, t1) on the empty cache with no intervening calls, check(K, t2)
returns true when t2 - t1 is less than ttlMs and false when t2 - t1 is at
least ttlMs. -/
theorem dedupe_ttl_window (ttl maxS : Int) (k : String) (t1 t2 : Int)
    (httl : 1 ≤ ttl) (hmax : 1 ≤ maxS) (hk : k ≠ "") (h12 : t1 < t2) :
    ((t2 - t1 < ttl →
      (dedupeCheck ⟨ttl, maxS⟩ (some k) t2 (dedupeCheck ⟨ttl, maxS⟩ (some k) t1 []).2).1
        = true) ∧
     (ttl ≤ t2 - t1 →
      (dedupeCheck ⟨ttl, maxS⟩ (some k) t2 (dedupeCheck ⟨ttl, maxS⟩ (some k) t1 []).2).1
        = false)) := by
  have hT : normalizedTtlMs ⟨ttl, maxS⟩ = ttl := by
    simp only [normalizedTtlMs]; omega
  have hM : 1 ≤ normalizedMaxSize ⟨ttl, maxS⟩ := by
    simp only [normalizedMaxSize]; omega
  have hstate : (dedupeCheck ⟨ttl, maxS⟩ (some k) t1 []).2 = [(k, t1)] := by
    rw [dedupeCheck_fresh _ k t1 [] hk rfl]
    simp only [prune, touch, List.filter_nil, List.nil_append]
    rw [pruneExpired_eq_self _ _ _ (by
      intro e he
      simp only [List.mem_singleton] at he
      rw [he, hT]
      omega)]
    rw [pruneOversize_eq_drop _ _ (by
      intro e he
      simp only [List.mem_singleton] at he
      rw [he]
      exact hk)]
    have hz : ([(k, t1)] : DedupeState).length - normalizedMaxSize ⟨ttl, maxS⟩ = 0 := by
      simp only [List.length_singleton]
      omega
    rw [hz, List.drop_zero]
  rw [hstate]
  constructor
  · intro hlt
    rw [dedupeCheck_found_live _ k t2 t1 _ hk (lookup_cons_self k t1 []) (by rw [hT]; omega)]
  · intro hge
    rw [dedupeCheck_found_expired _ k t2 t1 _ hk (lookup_cons_self k t1 []) (by rw [hT]; omega)]

/-- C1 witness: instantiation of the amended TTL-window theorem at ttlMs =
1000, maxSize = 5, key k, times 0 and 400 (within the window) and times 0 and
1500 (beyond the window). -/
theorem dedupe_ttl_window_witness :
    (dedupeCheck ⟨1000, 5⟩ (some "k") 400 (dedupeCheck ⟨1000, 5⟩ (some "k") 0 []).2).1
      = true ∧
    (dedupeCheck ⟨1000, 5⟩ (some "k") 1500 (dedupeCheck ⟨1000, 5⟩ (some "k") 0 []).2).1
      = false :=
  ⟨(dedupe_ttl_window 1000 5 "k" 0 400 (by decide) (by decide) (by decide)
      (by decide)).1 (by decide),
   (dedupe_ttl_window 1000 5 "k" 0 1500 (by decide) (by decide) (by decide)
      (by decide)).2 (by decide)⟩

lemma lookup_of_mem_nodup (s : DedupeState) (k : String) (t : Int)
    (hnd : (s.map Prod.fst).Nodup) (hmem : (k, t) ∈ s) : List.lookup k s = some t := by
  induction s with
  | nil => cases hmem
  | cons e rest ih =>
    obtain ⟨a, b⟩ := e
    rcases List.mem_cons.mp hmem with h | h
    · obtain ⟨h1, h2⟩ := Prod.mk.injEq .. ▸ h
      subst h1; subst h2
      simp [List.lookup]
    · have hne : k ≠ a := by
        intro hEq
        subst hEq
        have hmemk : k ∈ rest.map Prod.fst := List.mem_map_of_mem Prod.fst h
        exact ((List.nodup_cons.mp (by simpa using hnd)).1) hmemk
      simp only [List.lookup, show (k == a) = false from beq_eq_false_iff_ne.mpr hne]
      exact ih (by simpa using (List.nodup_cons.mp (by simpa using hnd)).2) h

/-- Characterization of a run of check calls on pairwise-distinct, non-empty,
not-yet-present keys whose timestamps all lie inside one TTL window: the final
store is the suffix of length maxSize of the starting store extended by the
inserted entries, oldest evicted first. -/
lemma runDedupeChecks_fresh_keys (o : DedupeOptions) (L : List (String × Int)) :
    ∀ (s : DedupeState),
      ((s ++ L).map Prod.fst).Nodup →
      (∀ e ∈ s ++ L, e.1 ≠ "") →
      (∀ e ∈ s ++ L, ∀ c ∈ L, ¬(e.2 < c.2 - normalizedTtlMs o)) →
      s.length ≤ normalizedMaxSize o →
      runDedupeChecks o (L.map (fun e => (some e.1, e.2))) s
        = (s ++ L).drop ((s ++ L).length - normalizedMaxSize o) := by
  induction L with
  | nil =>
    intro s _ _ _ hlen
    simp only [List.map_nil, runDedupeChecks, List.foldl_nil, List.append_nil]
    have hz : s.length - normalizedMaxSize o = 0 := by omega
    rw [hz, List.drop_zero]
  | cons hd L ih =>
    obtain ⟨k, t⟩ := hd
    intro s hnodup hkeys hwin hlen
    have hkmem : (k, t) ∈ s ++ (k, t) :: L := List.mem_append_right s (List.mem_cons_self _ _)
    have hk : k ≠ "" := hkeys (k, t) hkmem
    have hmapped : (s ++ (k, t) :: L).map Prod.fst = s.map Prod.fst ++ k :: L.map Prod.fst := by
      simp
    have hknots : k ∉ s.map Prod.fst := by
      intro hmem
      have hd2 := (List.nodup_append.mp (hmapped ▸ hnodup)).2.2
      exact hd2 hmem (List.mem_cons_self _ _)
    have hlook : List.lookup k s = none := lookup_eq_none_of_not_mem_keys k s hknots
    have htouch : touch k t s = s ++ [(k, t)] := by
      unfold touch
      congr 1
      apply List.filter_eq_self.mpr
      intro e he
      simp only [bne_iff_ne, ne_eq]
      intro hfst
      exact hknots (hfst ▸ List.mem_map_of_mem Prod.fst he)
    have hmemA : ∀ e ∈ s ++ [(k, t)], e ∈ s ++ (k, t) :: L := by
      intro e he
      rcases List.mem_append.mp he with h | h
      · exact List.mem_append_left _ h
      · rw [List.mem_singleton.mp h]
        exact hkmem
    have hkeysA : ∀ e ∈ s ++ [(k, t)], e.1 ≠ "" := fun e he => hkeys e (hmemA e he)
    have hpe : pruneExpired (normalizedTtlMs o) t (s ++ [(k, t)]) = s ++ [(k, t)] := by
      apply pruneExpired_eq_self
      intro e he
      exact hwin e (hmemA e he) (k, t) (List.mem_cons_self _ _)
    have hstate2 : (dedupeCheck o (some k) t s).2
        = (s ++ [(k, t)]).drop ((s ++ [(k, t)]).length - normalizedMaxSize o) := by
      rw [dedupeCheck_fresh o k t s hk hlook]
      show prune o t (touch k t s) = _
      rw [htouch]
      unfold prune
      rw [hpe, pruneOversize_eq_drop _ _ hkeysA]
    have hstep : runDedupeChecks o (((k, t) :: L).map (fun e => (some e.1, e.2))) s
        = runDedupeChecks o (L.map (fun e => (some e.1, e.2)))
            ((s ++ [(k, t)]).drop ((s ++ [(k, t)]).length - normalizedMaxSize o)) := by
      simp only [List.map_cons, runDedupeChecks, List.foldl_cons]
      rw [hstate2]
    rw [hstep]
    have hdropsub : List.Sublist
        ((s ++ [(k, t)]).drop ((s ++ [(k, t)]).length - normalizedMaxSize o))
        (s ++ [(k, t)]) := List.drop_sublist _ _
    have hmem₂ : ∀ e ∈ (s ++ [(k, t)]).drop ((s ++ [(k, t)]).length - normalizedMaxSize o) ++ L,
        e ∈ s ++ (k, t) :: L := by
      intro e he
      rcases List.mem_append.mp he with h | h
      · exact hmemA e (hdropsub.mem h)
      · exact List.mem_append_right _ (List.mem_cons_of_mem _ h)
    have hnodup₂ :
        (((s ++ [(k, t)]).drop ((s ++ [(k, t)]).length - normalizedMaxSize o) ++ L).map
          Prod.fst).Nodup := by
      have hsub : List.Sublist
          (((s ++ [(k, t)]).drop ((s ++ [(k, t)]).length - normalizedMaxSize o) ++ L).map
            Prod.fst)
          (((s ++ [(k, t)]) ++ L).map Prod.fst) := by
        rw [List.map_append, List.map_append]
        exact List.Sublist.append_right (List.Sublist.map _ hdropsub) _
      apply List.Nodup.sublist hsub
      have heq : ((s ++ [(k, t)]) ++ L).map Prod.fst = (s ++ (k, t) :: L).map Prod.fst := by
        simp
      rw [heq]
      exact hnodup
    have hkeys₂ : ∀ e ∈ (s ++ [(k, t)]).drop ((s ++ [(k, t)]).length - normalizedMaxSize o) ++ L,
        e.1 ≠ "" := fun e he => hkeys e (hmem₂ e he)
    have hwin₂ : ∀ e ∈ (s ++ [(k, t)]).drop ((s ++ [(k, t)]).length - normalizedMaxSize o) ++ L,
        ∀ c ∈ L, ¬(e.2 < c.2 - normalizedTtlMs o) :=
      fun e he c hc => hwin e (hmem₂ e he) c (List.mem_cons_of_mem _ hc)
    have hlen₂ : ((s ++ [(k, t)]).drop ((s ++ [(k, t)]).length - normalizedMaxSize o)).length
        ≤ normalizedMaxSize o := by
      rw [List.length_drop]
      omega
    rw [ih _ hnodup₂ hkeys₂ hwin₂ hlen₂]
    have hApp : s ++ (k, t) :: L = (s ++ [(k, t)]) ++ L := by simp
    rw [hApp]
    have hd_le : (s ++ [(k, t)]).length - normalizedMaxSize o ≤ (s ++ [(k, t)]).length := by
      omega
    have hXL : (s ++ [(k, t)]).drop ((s ++ [(k, t)]).length - normalizedMaxSize o) ++ L
        = ((s ++ [(k, t)]) ++ L).drop ((s ++ [(k, t)]).length - normalizedMaxSize o) :=
      (List.drop_append_of_le_length hd_le).symm
    rw [hXL, List.drop_drop]
    congr 1
    simp only [List.length_drop, List.length_append, List.length_singleton, List.length_cons]
    omega

/-- Executable form of the strictly-increasing-times hypothesis of the LRU
eviction claim. -/
def timesStrictlyIncreasing : List (String × Int) → Bool
  | [] => true
  | [_] => true
  | a :: b :: rest => decide (a.2 < b.2) && timesStrictlyIncreasing (b :: rest)

/-- C4: starting from an empty cache, checking maxSize + 1 distinct non-empty
keys in strictly increasing time order, all within one TTL window, leaves the
first-inserted key evicted (a subsequent in-window check of it returns false)
while each of the most recent maxSize keys is still present (a subsequent
in-window check of it returns true). -/
theorem dedupe_lru_eviction (o : DedupeOptions) (k0 : String) (t0 : Int)
    (rest : List (String × Int)) (tp : Int)
    (hlen : ((k0, t0) :: rest).length = normalizedMaxSize o + 1)
    (hnodup : (((k0, t0) :: rest).map Prod.fst).Nodup)
    (hkeys : ∀ e ∈ (k0, t0) :: rest, e.1 ≠ "")
    (hinc : timesStrictlyIncreasing ((k0, t0) :: rest) = true)
    (hwin : ∀ e ∈ (k0, t0) :: rest, ∀ c ∈ (k0, t0) :: rest, c.2 - e.2 < normalizedTtlMs o)
    (hprobe : ∀ e ∈ (k0, t0) :: rest, tp - e.2 < normalizedTtlMs o) :
    (dedupeCheck o (some k0) tp
      (runDedupeChecks o (((k0, t0) :: rest).map (fun e => (some e.1, e.2))) [])).1 = false ∧
    ∀ e ∈ rest, (dedupeCheck o (some e.1) tp
      (runDedupeChecks o (((k0, t0) :: rest).map (fun e => (some e.1, e.2))) [])).1 = true := by
  have hS : runDedupeChecks o (((k0, t0) :: rest).map (fun e => (some e.1, e.2))) [] = rest := by
    rw [runDedupeChecks_fresh_keys o ((k0, t0) :: rest) []
      (by simpa using hnodup)
      (by simpa using hkeys)
      (by
        intro e he c hc
        have hw := hwin e (by simpa using he) c hc
        omega)
      (by simp)]
    simp only [List.nil_append]
    rw [hlen]
    have h1 : normalizedMaxSize o + 1 - normalizedMaxSize o = 1 := by omega
    rw [h1]
    simp
  have hndcons : k0 ∉ rest.map Prod.fst ∧ (rest.map Prod.fst).Nodup := by
    have hmc := hnodup
    rw [List.map_cons] at hmc
    exact List.nodup_cons.mp hmc
  have hk0 : k0 ≠ "" := hkeys (k0, t0) (List.mem_cons_self _ _)
  constructor
  · rw [hS, dedupeCheck_fresh o k0 tp rest hk0
      (lookup_eq_none_of_not_mem_keys k0 rest hndcons.1)]
  · intro e he
    rw [hS]
    have hlookup : List.lookup e.1 rest = some e.2 := by
      apply lookup_of_mem_nodup rest e.1 e.2 hndcons.2
      exact he
    rw [dedupeCheck_found_live o e.1 tp e.2 rest
      (hkeys e (List.mem_cons_of_mem _ he)) hlookup
      (Or.inr (hprobe e (List.mem_cons_of_mem _ he)))]

/-- C4 witness: maxSize 2, TTL 1000, three distinct keys checked at times 0,
1, 2, probed at time 3: the first key is evicted, the last two remain. -/
theorem dedupe_lru_eviction_witness :
    (dedupeCheck ⟨1000, 2⟩ (some "a") 3
      (runDedupeChecks ⟨1000, 2⟩
        ((("a", (0 : Int)) :: [("b", 1), ("c", 2)]).map (fun e => (some e.1, e.2))) [])).1
      = false ∧
    ∀ e ∈ [("b", (1 : Int)), ("c", 2)], (dedupeCheck ⟨1000, 2⟩ (some e.1) 3
      (runDedupeChecks ⟨1000, 2⟩
        ((("a", (0 : Int)) :: [("b", 1), ("c", 2)]).map (fun e => (some e.1, e.2))) [])).1
      = true :=
  dedupe_lru_eviction ⟨1000, 2⟩ "a" 0 [("b", 1), ("c", 2)] 3
    (by decide) (by decide) (by decide) (by decide) (by decide) (by decide)

/- ========================================================================
   Reply recipient resolver — resolveReplyRecipients
   (src/unnamed/part_002, lines 10-55)
   ======================================================================== -/

/-- Result record of resolveReplyRecipients; the source fields are named to
and cc (the former is a reserved token in Lean, hence the Addrs suffix). -/
structure ReplyRecipients where
  toAddrs : List String
  ccAddrs : List String
deriving DecidableEq

/-- Parameter record of resolveReplyRecipients. -/
structure ResolveReplyParams where
  botEmail : String
  originalFrom : String
  originalTo : List String
  originalCc : List String
  preserveCc : Bool

/-- Embedding of the branch of resolveReplyRecipients taken when the bot
address occurs (case-insensitively) in the original To list (source lines
22-38). -/
def replyBranchBotInTo (p : ResolveReplyParams) : ReplyRecipients :=
  let botLower := lowerS p.botEmail
  { toAddrs := [p.originalFrom],
    ccAddrs :=
      if p.preserveCc then
        p.originalTo.filter
            (fun addr => lowerS addr != botLower && lowerS addr != lowerS p.originalFrom)
          ++ p.originalCc.filter
            (fun addr => lowerS addr != botLower && lowerS addr != lowerS p.originalFrom)
      else [] }

/-- Embedding of the branch of resolveReplyRecipients taken when the bot
address does not occur in the original To list (source lines 40-54). -/
def replyBranchBotInCc (p : ResolveReplyParams) : ReplyRecipients :=
  let botLower := lowerS p.botEmail
  { toAddrs := [p.originalFrom],
    ccAddrs :=
      if p.preserveCc then
        p.originalTo.filter
            (fun addr => lowerS addr != botLower && lowerS addr != lowerS p.originalFrom)
          ++ p.originalCc.filter
            (fun addr => lowerS addr != botLower && lowerS addr != lowerS p.originalFrom)
      else [] }

/-- Embedding of resolveReplyRecipients: dispatch on whether the bot address
occurs case-insensitively in the original To list. -/
def resolveReplyRecipients (p : ResolveReplyParams) : ReplyRecipients :=
  if p.originalTo.any (fun addr => lowerS addr == lowerS p.botEmail) then
    replyBranchBotInTo p
  else
    replyBranchBotInCc p

/-- Single unbranched formula for the reply recipients, following the words of
the specification (section 4.3): to is exactly the original sender, and cc,
when preserved, is the concatenation of original To and Cc with the bot
address and the sender removed case-insensitively. -/
def resolveReplyRecipientsUnbranched (p : ResolveReplyParams) : ReplyRecipients :=
  { toAddrs := [p.originalFrom],
    ccAddrs :=
      if p.preserveCc then
        (p.originalTo ++ p.originalCc).filter
          (fun addr => lowerS addr != lowerS p.botEmail
            && lowerS addr != lowerS p.originalFrom)
      else [] }

/-- C2: the reply To is always exactly the original sender; the reply Cc is
empty when preserveCc is false, and otherwise is the concatenation of the
original To and Cc lists with every address case-insensitively equal to the
bot or to the sender removed, order preserved and no further deduplication. -/
theorem reply_recipients_shape (p : ResolveReplyParams) :
    (resolveReplyRecipients p).toAddrs = [p.originalFrom] ∧
    (p.preserveCc = false → (resolveReplyRecipients p).ccAddrs = []) ∧
    (p.preserveCc = true → (resolveReplyRecipients p).ccAddrs
      = (p.originalTo ++ p.originalCc).filter
          (fun addr => lowerS addr != lowerS p.botEmail
            && lowerS addr != lowerS p.originalFrom)) := by
  simp only [resolveReplyRecipients, replyBranchBotInTo, replyBranchBotInCc]
  split
  · refine ⟨rfl, ?_, ?_⟩
    · intro h
      simp [h]
    · intro h
      simp [h, List.filter_append]
  · refine ⟨rfl, ?_, ?_⟩
    · intro h
      simp [h]
    · intro h
      simp [h, List.filter_append]

/-- C2 witness: concrete instantiation with preserveCc true; the bot address
(present in original To) and the sender (present in original Cc) are removed,
the third parties survive in order. -/
theorem reply_recipients_shape_witness :
    (resolveReplyRecipients ⟨"bot@x.com", "alice@x.com", ["bot@x.com", "dave@x.com"],
        ["carol@x.com", "alice@x.com"], true⟩).ccAddrs = ["dave@x.com", "carol@x.com"] :=
  ((reply_recipients_shape ⟨"bot@x.com", "alice@x.com", ["bot@x.com", "dave@x.com"],
      ["carol@x.com", "alice@x.com"], true⟩).2.2 rfl).trans (by decide)

lemma mem_reply_filter_ne_bot (bot sender : String) (l : List String) (a : String)
    (ha : a ∈ l.filter (fun addr => lowerS addr != lowerS bot
      && lowerS addr != lowerS sender)) :
    lowerS a ≠ lowerS bot := by
  have hp := (List.mem_filter.mp ha).2
  simp only [Bool.and_eq_true, bne_iff_ne, ne_eq] at hp
  exact hp.1

/-- C3: for every valid input (the sender is not the bot itself, which the
orchestrator guarantees by dropping self-originated messages before resolving
recipients), the bot address never appears case-insensitively in the computed
To or Cc. -/
theorem reply_recipients_exclude_bot (p : ResolveReplyParams)
    (hvalid : lowerS p.originalFrom ≠ lowerS p.botEmail) :
    (∀ a ∈ (resolveReplyRecipients p).toAddrs, lowerS a ≠ lowerS p.botEmail) ∧
    (∀ a ∈ (resolveReplyRecipients p).ccAddrs, lowerS a ≠ lowerS p.botEmail) := by
  constructor
  · intro a ha
    simp only [resolveReplyRecipients, replyBranchBotInTo, replyBranchBotInCc] at ha
    split at ha <;> simp only [List.mem_singleton] at ha <;> rw [ha] <;> exact hvalid
  · intro a ha
    simp only [resolveReplyRecipients, replyBranchBotInTo, replyBranchBotInCc] at ha
    split at ha <;> split at ha
    · rcases List.mem_append.mp ha with h | h
      · exact mem_reply_filter_ne_bot _ _ _ _ h
      · exact mem_reply_filter_ne_bot _ _ _ _ h
    · cases ha
    · rcases List.mem_append.mp ha with h | h
      · exact mem_reply_filter_ne_bot _ _ _ _ h
      · exact mem_reply_filter_ne_bot _ _ _ _ h
    · cases ha

/-- C3 witness: a concrete input addressed to the bot (mixed case) with a Cc;
the computed Cc avoids the bot address. -/
theorem reply_recipients_exclude_bot_witness :
    lowerS "alice@x.com" ≠ lowerS "bot@x.com" ∧
    (∀ a ∈ (resolveReplyRecipients ⟨"bot@x.com", "alice@x.com", ["Bot@X.com"],
        ["carol@x.com"], true⟩).ccAddrs, lowerS a ≠ lowerS "bot@x.com") :=
  ⟨by decide, (reply_recipients_exclude_bot ⟨"bot@x.com", "alice@x.com", ["Bot@X.com"],
      ["carol@x.com"], true⟩ (by decide)).2⟩

/-- C5: the branch taken when the bot occurs in the original To and the branch
taken when it does not compute the same result, and the whole function is
extensionally equal to the single unbranched formula. -/
theorem reply_branches_equivalent (p : ResolveReplyParams) :
    replyBranchBotInTo p = replyBranchBotInCc p ∧
    resolveReplyRecipients p = resolveReplyRecipientsUnbranched p := by
  constructor
  · rfl
  · simp only [resolveReplyRecipients, replyBranchBotInTo, replyBranchBotInCc,
      resolveReplyRecipientsUnbranched, List.filter_append]
    split <;> rfl

/- ========================================================================
   Quote stripper — extractLatestContent
   (src/unnamed/part_002, lines 57-79)
   ======================================================================== -/

/-- Embedding of the test of the regular expression matching a quote header:
caret, the letters O and n, a space, one or more arbitrary non-newline
characters, a space, the letters wrote, a colon, dollar, case-insensitive.
Equivalently: the lowered string starts with the three characters of the
quote-header prefix, ends with its seven-character suffix, has length at
least eleven, and contains no newline. -/
def matchesOnWroteRegex (s : String) : Bool :=
  "on ".data.isPrefixOf (s.data.map Char.toLower)
    && " wrote:".data.isSuffixOf (s.data.map Char.toLower)
    && decide (11 ≤ s.data.length)
    && s.data.all (fun c => c != '\n')

/-- Embedding of the test of the regular expression matching a forwarded or
reply separator: caret, two or more hyphens, optional whitespace, then the
words Original Message case-insensitively (the tail of the line is
unconstrained, since the pattern is anchored only at the start). -/
def matchesOriginalMessageRegex (s : String) : Bool :=
  decide (2 ≤ (s.data.takeWhile (fun c => c == '-')).length)
    && "original message".data.isPrefixOf
        (((s.data.dropWhile (fun c => c == '-')).dropWhile isJsWhitespace).map Char.toLower)

/-- Embedding of the test of the regular expression matching a signature or
quote divider: a line consisting solely of two or more underscores. -/
def matchesUnderscoresRegex (s : String) : Bool :=
  decide (2 ≤ s.data.length) && s.data.all (fun c => c == '_')

/-- A line stops the scan when its trimmed form matches one of the three stop
patterns, mirroring the three break tests of extractLatestContent, each of
which is applied to line.trim(). -/
def isStopLine (line : String) : Bool :=
  matchesOnWroteRegex (trimS line) || matchesOriginalMessageRegex (trimS line)
    || matchesUnderscoresRegex (trimS line)

/-- Embedding of line.startsWith with the quote marker, applied to the raw
(untrimmed) line as in the source. -/
def startsWithGt (line : String) : Bool :=
  ">".data.isPrefixOf line.data

/-- Embedding of the JavaScript String.prototype.split on a newline:
accumulate characters of the current piece (in reverse) and emit a piece at
every newline and at the end. -/
def splitLinesAux : List Char → List Char → List String
  | [], cur => [⟨cur.reverse⟩]
  | c :: cs, cur =>
    if c == '\n' then (⟨cur.reverse⟩ : String) :: splitLinesAux cs []
    else splitLinesAux cs (c :: cur)

/-- The lines of a body text, split on the newline character. -/
def splitLines (s : String) : List String :=
  splitLinesAux s.data []

/-- Embedding of the JavaScript Array.prototype.join with a newline. -/
def joinWithNewline : List String → String
  | [] => ""
  | [l] => l
  | l :: rest => l ++ "\n" ++ joinWithNewline rest

/-- Embedding of the scan loop of extractLatestContent: stop at the first
stop line (discarding it and everything after), skip quoted lines beginning
with the quote marker, keep everything else in order. -/
def keepLatestLines : List String → List String
  | [] => []
  | line :: rest =>
    if isStopLine line then []
    else if startsWithGt line then keepLatestLines rest
    else line :: keepLatestLines rest

/-- Embedding of extractLatestContent: early return on a falsy (empty) body,
otherwise split into lines, run the scan loop, rejoin with newlines and trim. -/
def extractLatestContent (bodyText : String) : String :=
  if bodyText = "" then ""
  else trimS (joinWithNewline (keepLatestLines (splitLines bodyText)))

/-- Declarative form of the amended claim: the kept lines are the lines
before the first stop line, with the quoted lines filtered out; the result is
their join, trimmed. -/
def extractLatestContentSpec (bodyText : String) : String :=
  trimS (joinWithNewline
    (((splitLines bodyText).takeWhile (fun l => !(isStopLine l))).filter
      (fun l => !(startsWithGt l))))

lemma keepLatestLines_eq_takeWhile_filter (lines : List String) :
    keepLatestLines lines
      = (lines.takeWhile (fun l => !(isStopLine l))).filter (fun l => !(startsWithGt l)) := by
  induction lines with
  | nil => rfl
  | cons line rest ih =>
    by_cases hstop : isStopLine line
    · simp [keepLatestLines, List.takeWhile_cons, hstop]
    · by_cases hq : startsWithGt line
      · simp [keepLatestLines, List.takeWhile_cons, hstop, hq, ih]
      · simp [keepLatestLines, List.takeWhile_cons, hstop, hq, ih]

/-- C6 counterexample: on the single-line body consisting of a space followed
by a quote header, the raw line matches none of the three stop patterns as
the claim states them and does not begin with the quote marker, so by the
claim it is kept and the result would be its trimmed join; the code, which
trims the line before testing the patterns, discards it and returns the empty
string instead. -/
theorem extract_latest_content_counterexample :
    matchesOnWroteRegex " On x wrote:" = false ∧
    matchesOriginalMessageRegex " On x wrote:" = false ∧
    matchesUnderscoresRegex " On x wrote:" = false ∧
    startsWithGt " On x wrote:" = false ∧
    extractLatestContent " On x wrote:" = "" ∧
    trimS (joinWithNewline [" On x wrote:"]) = "On x wrote:" ∧
    ("" : String) ≠ "On x wrote:" := by
  decide

/-- C6 (amended): extractLatestContent scans lines top-to-bottom and stops
entirely at the first line whose whitespace-trimmed form matches the quote
header pattern, the original-message separator pattern, or the underscores
pattern; before stopping, every line beginning with the quote marker (tested
on the untrimmed line) is skipped and all other lines are kept in order; the
result is the kept lines rejoined with newlines and trimmed. -/
theorem extract_latest_content_spec (bodyText : String) :
    extractLatestContent bodyText = extractLatestContentSpec bodyText := by
  by_cases h : bodyText = ""
  · rw [h]
    decide
  · simp only [extractLatestContent, if_neg h, extractLatestContentSpec,
      keepLatestLines_eq_takeWhile_filter]

/- ========================================================================
   Inbound allowlist gate — processInboundEmail
   (src/extensions/email/src/email/monitor.test.ts, lines 947-987)
   ======================================================================== -/

/-- Embedding of the early-return gates of processInboundEmail (source lines
961-977): the message proceeds to content extraction and dispatch exactly
when this returns true.  botEmailLower is the already-lowercased bot address
(account.gmailAddress?.toLowerCase() ?? client.userEmail.toLowerCase());
dmPolicy is the configured policy, none modelling an absent field defaulted
to allowlist; allowFrom is the configured allow-list. -/
def inboundAllowlistGate (botEmailLower fromAddr : String) (dmPolicy : Option String)
    (allowFrom : List String) : Bool :=
  if lowerS fromAddr == botEmailLower then false
  else
    let policy := dmPolicy.getD "allowlist"
    let allow := allowFrom.map lowerS
    if policy == "disabled" then false
    else if policy != "open" && decide (0 < allow.length) && !(allow.contains "*") then
      allow.contains (lowerS fromAddr)
    else true

/-- C7 counterexample: with policy allowlist (neither open nor disabled) and
an empty allow-list, the guard allowFrom.length greater than zero fails, so
the code dispatches a sender that appears nowhere in the allow-list and with
no wildcard present, contradicting the claim that dispatch happens only if
the sender appears in the list or the list contains the wildcard. -/
theorem inbound_allowlist_counterexample :
    inboundAllowlistGate "bot@x.com" "alice@x.com" (some "allowlist") [] = true ∧
    (([] : List String).map lowerS).contains "*" = false ∧
    (([] : List String).map lowerS).contains (lowerS "alice@x.com") = false ∧
    (some "allowlist" ≠ some "open") ∧ (some "allowlist" ≠ some "disabled") ∧
    lowerS "alice@x.com" ≠ "bot@x.com" := by
  decide

/-- C7 (amended): a self-originated message is always blocked regardless of
policy; policy disabled always blocks; when the policy is neither open nor
disabled and the allow-list is non-empty, a message proceeds only if the
allow-list contains the wildcard or the sender address (case-insensitive);
and when the allow-list is empty, every non-self sender proceeds unless the
policy is disabled. -/
theorem inbound_allowlist_gate_policy (botEmailLower fromAddr : String)
    (dmPolicy : Option String) (allowFrom : List String) :
    (lowerS fromAddr = botEmailLower →
      inboundAllowlistGate botEmailLower fromAddr dmPolicy allowFrom = false) ∧
    (dmPolicy.getD "allowlist" = "disabled" →
      inboundAllowlistGate botEmailLower fromAddr dmPolicy allowFrom = false) ∧
    (dmPolicy.getD "allowlist" ≠ "open" → dmPolicy.getD "allowlist" ≠ "disabled" →
      allowFrom ≠ [] →
      inboundAllowlistGate botEmailLower fromAddr dmPolicy allowFrom = true →
      (allowFrom.map lowerS).contains "*" = true
        ∨ (allowFrom.map lowerS).contains (lowerS fromAddr) = true) ∧
    (allowFrom = [] → lowerS fromAddr ≠ botEmailLower →
      dmPolicy.getD "allowlist" ≠ "disabled" →
      inboundAllowlistGate botEmailLower fromAddr dmPolicy allowFrom = true) := by
  refine ⟨?_, ?_, ?_, ?_⟩
  · intro h
    simp [inboundAllowlistGate, h]
  · intro h
    simp [inboundAllowlistGate, h]
  · intro hop hdis hne htrue
    by_cases hwild : (allowFrom.map lowerS).contains "*" = true
    · exact Or.inl hwild
    · refine Or.inr ?_
      simp only [inboundAllowlistGate] at htrue
      split at htrue
      · exact absurd htrue (by simp)
      · split at htrue
        · rename_i hpol
          exact absurd (by simpa using hpol) hdis
        · split at htrue
          · exact htrue
          · rename_i hguard
            exfalso
            apply hguard
            have h1 : (dmPolicy.getD "allowlist" != "open") = true := bne_iff_ne.mpr hop
            have h2 : decide (0 < (allowFrom.map lowerS).length) = true := by
              simp only [List.length_map, decide_eq_true_eq]
              exact List.length_pos.mpr hne
            have hcf : (allowFrom.map lowerS).contains "*" = false :=
              Bool.eq_false_iff.mpr hwild
            have h3 : (!(allowFrom.map lowerS).contains "*") = true := by
              rw [hcf]; rfl
            rw [h1, h2, h3]
            rfl
  · intro hempty hself hdis
    subst hempty
    simp only [inboundAllowlistGate, List.map_nil, List.length_nil]
    rw [if_neg (by simpa using hself)]
    rw [if_neg (by simpa using hdis)]
    simp

/-- C7 witness: the four amended cases at concrete inputs — a self-sender in
mixed case is blocked under policy open; policy disabled blocks an allowed
sender; under policy allowlist a proceeding sender is indeed in the list; and
an empty allow-list with absent policy admits a third-party sender. -/
theorem inbound_allowlist_gate_policy_witness :
    inboundAllowlistGate "bot@x.com" "Bot@X.com" (some "open") ["z@x.com"] = false ∧
    inboundAllowlistGate "bot@x.com" "alice@x.com" (some "disabled") ["alice@x.com"] = false ∧
    ((["alice@x.com"].map lowerS).contains "*" = true
      ∨ (["alice@x.com"].map lowerS).contains (lowerS "alice@x.com") = true) ∧
    inboundAllowlistGate "bot@x.com" "alice@x.com" none [] = true :=
  ⟨(inbound_allowlist_gate_policy "bot@x.com" "Bot@X.com" (some "open") ["z@x.com"]).1
      (by decide),
   (inbound_allowlist_gate_policy "bot@x.com" "alice@x.com" (some "disabled")
      ["alice@x.com"]).2.1 (by decide),
   (inbound_allowlist_gate_policy "bot@x.com" "alice@x.com" (some "allowlist")
      ["alice@x.com"]).2.2.1 (by decide) (by decide) (by decide) (by decide),
   (inbound_allowlist_gate_policy "bot@x.com" "alice@x.com" none []).2.2.2 rfl
      (by decide) (by decide)⟩

/- ========================================================================
   Inbound message-id extraction — extractInboundMessageIds
   (src/extensions/email/src/email/monitor.test.ts, lines 748-806)
   ======================================================================== -/

/-- Model of the JSON-like values an unknown webhook payload can take. -/
inductive JsValue where
  | str (s : String)
  | num (n : Int)
  | bool (b : Bool)
  | null
  | arr (items : List JsValue)
  | obj (fields : List (String × JsValue))

/-- Embedding of asRecord: a value is a record exactly when it is a non-null,
non-array object; field order models JavaScript object key order. -/
def asRecord : JsValue → Option (List (String × JsValue))
  | JsValue.obj fields => some fields
  | _ => none

/-- Property access on a record; absent fields yield none (undefined). -/
def getField (fields : List (String × JsValue)) (name : String) : Option JsValue :=
  List.lookup name fields

/-- Embedding of normalizeMessageId: non-strings give null, strings are
trimmed, and a blank trim gives null. -/
def normalizeMessageId (raw : Option JsValue) : Option String :=
  match raw with
  | some (JsValue.str s) => if trimS s = "" then none else some (trimS s)
  | _ => none

/-- Model of Set.prototype.add on an insertion-ordered set represented as a
duplicate-free list. -/
def insertUnique (target : List String) (id : String) : List String :=
  if target.contains id then target else target ++ [id]

/-- Embedding of pushMessageId: normalize the candidate and add it to the set
when it is a non-blank string. -/
def pushMessageId (target : List String) (raw : Option JsValue) : List String :=
  match normalizeMessageId raw with
  | some id => insertUnique target id
  | none => target

/-- Embedding of the messageIds-array step of collectMessageIdsFromNode: when
the field holds an array, push every element. -/
def pushMessageIdsArray (target : List String) (v : Option JsValue) : List String :=
  match v with
  | some (JsValue.arr values) => values.foldl (fun acc x => pushMessageId acc (some x)) target
  | _ => target

/-- Embedding of the messages-array step of collectMessageIdsFromNode: when
the field holds an array, push the messageId and id fields of every record
element. -/
def pushMessagesArray (target : List String) (v : Option JsValue) : List String :=
  match v with
  | some (JsValue.arr messages) =>
    messages.foldl (fun acc m =>
      match asRecord m with
      | none => acc
      | some mfields =>
        pushMessageId (pushMessageId acc (getField mfields "messageId"))
          (getField mfields "id")) target
  | _ => target

/-- Embedding of collectMessageIdsFromNode: on a record node, push the
messageId and id fields, every element of a messageIds array, and the
messageId and id fields of every record element of a messages array. -/
def collectMessageIdsFromNode (target : List String) (node : Option JsValue) : List String :=
  match node with
  | none => target
  | some v =>
    match asRecord v with
    | none => target
    | some fields =>
      pushMessagesArray
        (pushMessageIdsArray
          (pushMessageId (pushMessageId target (getField fields "messageId"))
            (getField fields "id"))
          (getField fields "messageIds"))
        (getField fields "messages")

/-- Embedding of extractInboundMessageIds: collect from the payload itself,
then from its data field when the payload is a record, returning the set as a
list in insertion order. -/
def extractInboundMessageIds (payload : JsValue) : List String :=
  let ids := collectMessageIdsFromNode [] (some payload)
  match asRecord payload with
  | some fields => collectMessageIdsFromNode ids (getField fields "data")
  | none => ids

/-- Candidates contributed by a messageIds-array field, in order, normalized. -/
def messageIdsArrayCandidates (v : Option JsValue) : List String :=
  match v with
  | some (JsValue.arr values) =>
    (values.map (fun x => normalizeMessageId (some x))).reduceOption
  | _ => []

/-- Candidates contributed by a messages-array field, in order, normalized. -/
def messagesArrayCandidates (v : Option JsValue) : List String :=
  match v with
  | some (JsValue.arr messages) =>
    (messages.map (fun m =>
      match asRecord m with
      | none => []
      | some mfields =>
        (normalizeMessageId (getField mfields "messageId")).toList
          ++ (normalizeMessageId (getField mfields "id")).toList)).flatten
  | _ => []

/-- Claim-side description of the id candidates gathered from one node, in
encounter order and before deduplication: the top-level messageId and id
fields, the elements of the messageIds array, and the messageId and id fields
of the record elements of the messages array, each normalized. -/
def nodeIdCandidates (node : Option JsValue) : List String :=
  match node with
  | none => []
  | some v =>
    match asRecord v with
    | none => []
    | some fields =>
      (normalizeMessageId (getField fields "messageId")).toList
        ++ (normalizeMessageId (getField fields "id")).toList
        ++ messageIdsArrayCandidates (getField fields "messageIds")
        ++ messagesArrayCandidates (getField fields "messages")

/-- Claim-side description of all id candidates of a payload: those of the
payload itself followed by those of its data field. -/
def payloadIdCandidates (payload : JsValue) : List String :=
  nodeIdCandidates (some payload)
    ++ (match asRecord payload with
        | some fields => nodeIdCandidates (getField fields "data")
        | none => [])

lemma pushMessageId_eq_foldl (target : List String) (raw : Option JsValue) :
    pushMessageId target raw
      = (normalizeMessageId raw).toList.foldl insertUnique target := by
  cases h : normalizeMessageId raw <;> simp [pushMessageId, h, Option.toList]

lemma pushMessageIdsArray_eq_foldl (v : Option JsValue) :
    ∀ target : List String,
      pushMessageIdsArray target v
        = (messageIdsArrayCandidates v).foldl insertUnique target := by
  have harr : ∀ (values : List JsValue) (t : List String),
      values.foldl (fun acc x => pushMessageId acc (some x)) t
        = ((values.map (fun x => normalizeMessageId (some x))).reduceOption).foldl
            insertUnique t := by
    intro values
    induction values with
    | nil => intro t; rfl
    | cons x xs ih =>
      intro t
      simp only [List.foldl_cons, List.map_cons]
      rw [ih]
      cases h : normalizeMessageId (some x) with
      | none =>
        rw [List.reduceOption_cons_of_none]
        simp [pushMessageId, h]
      | some id =>
        rw [List.reduceOption_cons_of_some, List.foldl_cons]
        simp [pushMessageId, h, insertUnique]
  intro target
  cases v with
  | none => rfl
  | some u =>
    cases u with
    | arr values => exact harr values target
    | str s => rfl
    | num n => rfl
    | bool b => rfl
    | null => rfl
    | obj fields => rfl

lemma pushMessagesArray_eq_foldl (v : Option JsValue) :
    ∀ target : List String,
      pushMessagesArray target v
        = (messagesArrayCandidates v).foldl insertUnique target := by
  have harr : ∀ (messages : List JsValue) (t : List String),
      messages.foldl (fun acc m =>
          match asRecord m with
          | none => acc
          | some mfields =>
            pushMessageId (pushMessageId acc (getField mfields "messageId"))
              (getField mfields "id")) t
        = ((messages.map (fun m =>
            match asRecord m with
            | none => []
            | some mfields =>
              (normalizeMessageId (getField mfields "messageId")).toList
                ++ (normalizeMessageId (getField mfields "id")).toList)).flatten).foldl
            insertUnique t := by
    intro messages
    induction messages with
    | nil => intro t; rfl
    | cons m ms ih =>
      intro t
      simp only [List.foldl_cons, List.map_cons, List.flatten_cons, List.foldl_append]
      cases hrec : asRecord m with
      | none =>
        simp only [hrec]
        exact ih t
      | some mfields =>
        simp only [hrec]
        rw [ih, List.foldl_append, ← pushMessageId_eq_foldl, ← pushMessageId_eq_foldl]
  intro target
  cases v with
  | none => rfl
  | some u =>
    cases u with
    | arr messages => exact harr messages target
    | str s => rfl
    | num n => rfl
    | bool b => rfl
    | null => rfl
    | obj fields => rfl

lemma collect_eq_foldl (target : List String) (node : Option JsValue) :
    collectMessageIdsFromNode target node
      = (nodeIdCandidates node).foldl insertUnique target := by
  cases node with
  | none => rfl
  | some v =>
    cases hrec : asRecord v with
    | none => simp [collectMessageIdsFromNode, nodeIdCandidates, hrec]
    | some fields =>
      simp only [collectMessageIdsFromNode, nodeIdCandidates, hrec]
      rw [List.foldl_append, List.foldl_append, List.foldl_append]
      rw [← pushMessageId_eq_foldl, ← pushMessageId_eq_foldl]
      rw [pushMessageIdsArray_eq_foldl, pushMessagesArray_eq_foldl]

lemma extract_eq_foldl (payload : JsValue) :
    extractInboundMessageIds payload
      = (payloadIdCandidates payload).foldl insertUnique [] := by
  simp only [extractInboundMessageIds, payloadIdCandidates]
  cases hrec : asRecord payload with
  | none =>
    simp only [hrec, List.append_nil]
    exact collect_eq_foldl [] (some payload)
  | some fields =>
    simp only [hrec, List.foldl_append]
    rw [collect_eq_foldl, collect_eq_foldl]

lemma mem_foldl_insertUnique (l : List String) :
    ∀ (t : List String) (x : String), x ∈ l.foldl insertUnique t ↔ x ∈ t ∨ x ∈ l := by
  induction l with
  | nil => intro t x; simp
  | cons a as ih =>
    intro t x
    simp only [List.foldl_cons]
    rw [ih]
    unfold insertUnique
    by_cases h : t.contains a
    · rw [if_pos h]
      have ha : a ∈ t := by simpa using h
      simp only [List.mem_cons]
      constructor
      · rintro (hx | hx)
        · exact Or.inl hx
        · exact Or.inr (Or.inr hx)
      · rintro (hx | hx | hx)
        · exact Or.inl hx
        · exact Or.inl (hx ▸ ha)
        · exact Or.inr hx
    · rw [if_neg h]
      simp only [List.mem_append, List.mem_cons, List.not_mem_nil, or_false]
      constructor
      · rintro ((hx | hx) | hx)
        · exact Or.inl hx
        · exact Or.inr (Or.inl hx)
        · exact Or.inr (Or.inr hx)
      · rintro (hx | hx | hx)
        · exact Or.inl (Or.inl hx)
        · exact Or.inl (Or.inr hx)
        · exact Or.inr hx

lemma nodup_foldl_insertUnique (l : List String) :
    ∀ t : List String, t.Nodup → (l.foldl insertUnique t).Nodup := by
  induction l with
  | nil => intro t ht; exact ht
  | cons a as ih =>
    intro t ht
    simp only [List.foldl_cons]
    apply ih
    unfold insertUnique
    by_cases h : t.contains a
    · rw [if_pos h]; exact ht
    · rw [if_neg h]
      refine List.Nodup.append ht (List.nodup_singleton a) ?_
      intro x hx hxa
      rw [List.mem_singleton.mp hxa] at hx
      exact h (by simpa using hx)

lemma normalizeMessageId_good (raw : Option JsValue) (id : String)
    (h : normalizeMessageId raw = some id) : id ≠ "" ∧ ∃ s, id = trimS s := by
  cases raw with
  | none => simp [normalizeMessageId] at h
  | some v =>
    cases v with
    | str s =>
      simp only [normalizeMessageId] at h
      split at h
      · cases h
      · rename_i hne
        injection h with h
        subst h
        exact ⟨hne, s, rfl⟩
    | num n => simp [normalizeMessageId] at h
    | bool b => simp [normalizeMessageId] at h
    | null => simp [normalizeMessageId] at h
    | arr items => simp [normalizeMessageId] at h
    | obj fields => simp [normalizeMessageId] at h

lemma mem_toList_normalized (o : Option JsValue) (id : String)
    (h : id ∈ (normalizeMessageId o).toList) : normalizeMessageId o = some id :=
  Option.mem_def.mp (Option.mem_toList.mp h)

lemma mem_messageIdsArrayCandidates (v : Option JsValue) (id : String)
    (h : id ∈ messageIdsArrayCandidates v) : ∃ raw, normalizeMessageId raw = some id := by
  cases v with
  | none => cases h
  | some u =>
    cases u with
    | arr values =>
      simp only [messageIdsArrayCandidates] at h
      have hsome := List.reduceOption_mem_iff.mp h
      obtain ⟨x, _, hx⟩ := List.mem_map.mp hsome
      exact ⟨some x, hx⟩
    | str s => cases h
    | num n => cases h
    | bool b => cases h
    | null => cases h
    | obj fields => cases h

lemma mem_messagesArrayCandidates (v : Option JsValue) (id : String)
    (h : id ∈ messagesArrayCandidates v) : ∃ raw, normalizeMessageId raw = some id := by
  cases v with
  | none => cases h
  | some u =>
    cases u with
    | arr messages =>
      simp only [messagesArrayCandidates] at h
      obtain ⟨piece, hpmem, hidp⟩ := List.mem_flatten.mp h
      obtain ⟨m, _, hm⟩ := List.mem_map.mp hpmem
      subst hm
      rcases hmr : asRecord m with _ | mfields
      · rw [hmr] at hidp
        cases hidp
      · rw [hmr] at hidp
        rcases List.mem_append.mp hidp with hh | hh
        · exact ⟨_, mem_toList_normalized _ _ hh⟩
        · exact ⟨_, mem_toList_normalized _ _ hh⟩
    | str s => cases h
    | num n => cases h
    | bool b => cases h
    | null => cases h
    | obj fields => cases h

lemma mem_nodeIdCandidates (node : Option JsValue) (id : String)
    (h : id ∈ nodeIdCandidates node) : ∃ raw, normalizeMessageId raw = some id := by
  cases node with
  | none => cases h
  | some v =>
    cases hrec : asRecord v with
    | none =>
      simp only [nodeIdCandidates, hrec] at h
      cases h
    | some fields =>
      simp only [nodeIdCandidates, hrec] at h
      rcases List.mem_append.mp h with h | h
      · rcases List.mem_append.mp h with h | h
        · rcases List.mem_append.mp h with h | h
          · exact ⟨_, mem_toList_normalized _ _ h⟩
          · exact ⟨_, mem_toList_normalized _ _ h⟩
        · exact mem_messageIdsArrayCandidates _ _ h
      · exact mem_messagesArrayCandidates _ _ h

lemma mem_payloadIdCandidates (payload : JsValue) (id : String)
    (h : id ∈ payloadIdCandidates payload) : ∃ raw, normalizeMessageId raw = some id := by
  simp only [payloadIdCandidates] at h
  rcases List.mem_append.mp h with h | h
  · exact mem_nodeIdCandidates _ _ h
  · rcases hrec : asRecord payload with _ | fields
    · rw [hrec] at h
      cases h
    · rw [hrec] at h
      exact mem_nodeIdCandidates _ _ h

/-- C10: every id returned by extractInboundMessageIds is a non-empty trimmed
string, no id occurs twice, and an id is returned exactly when it is among
the normalized candidates gathered from the top-level messageId and id
fields, the messageIds array, the messages array elements, and the same
fields nested under data (non-string and blank candidates yield no
normalized id and so are ignored). -/
theorem extract_inbound_message_ids_spec (payload : JsValue) :
    (∀ id ∈ extractInboundMessageIds payload, id ≠ "" ∧ ∃ s, id = trimS s) ∧
    (extractInboundMessageIds payload).Nodup ∧
    (∀ id, id ∈ extractInboundMessageIds payload ↔ id ∈ payloadIdCandidates payload) := by
  have hmem : ∀ id, id ∈ extractInboundMessageIds payload
      ↔ id ∈ payloadIdCandidates payload := by
    intro id
    rw [extract_eq_foldl, mem_foldl_insertUnique]
    simp
  refine ⟨?_, ?_, hmem⟩
  · intro id hid
    obtain ⟨raw, hraw⟩ := mem_payloadIdCandidates payload id ((hmem id).mp hid)
    exact normalizeMessageId_good raw id hraw
  · rw [extract_eq_foldl]
    exact nodup_foldl_insertUnique _ _ List.nodup_nil
